import Mathlib

/-
  Verification of the text search / replace / statistics core of the
  google-docs-mcp-server repository (src/tools/media.ts and
  src/utils/validation.ts), as a shallow embedding over `List Char`.

  Strings are modelled as `List Char`; JavaScript `toLowerCase` is modelled
  per character, including the U+0130 expansion to two code units (the one
  unconditional length-changing lowercase mapping of Unicode SpecialCasing),
  so that the case-folded copy of a text can be longer than the original;
  the `while`-loops of the tools are modelled with explicit fuel, `none`
  standing for a loop that has not terminated within the given fuel.
-/

set_option maxRecDepth 10000

namespace GoogleDocsMcp

/-- The Latin capital letter I with dot above, U+0130, whose JS
`toLowerCase` image is two code units. -/
def capitalIWithDot : Char := Char.ofNat 304

/-- The combining dot above, U+0307. -/
def combiningDotAbove : Char := Char.ofNat 775

/-- Model of JS `String.prototype.toLowerCase` on one character: U+0130
expands to "i" followed by U+0307 (the only unconditional length-changing
lowercase mapping of Unicode SpecialCasing); every other character maps to
one character, `Char.toLower` covering the ASCII range. -/
def jsToLowerChar (c : Char) : List Char :=
  if c = capitalIWithDot then ['i', combiningDotAbove] else [c.toLower]

/-- Model of JS `String.prototype.toLowerCase`: per-character lowering, not
length-preserving in general (U+0130 doubles). -/
def strLower (s : List Char) : List Char := s.flatMap jsToLowerChar

/-- The substring `t[s:e]` (half-open), as in JS `substring` with `s ≤ e`. -/
def seg (t : List Char) (s e : Nat) : List Char := (t.drop s).take (e - s)

/-- Occurrence test: `q` occurs in `t` at position `i` (and `i` does not lie
past the end of `t`, as JS `indexOf` never reports such a position). -/
def matchesAt (t q : List Char) (i : Nat) : Bool :=
  decide (i ≤ t.length) && ((t.drop i).take q.length == q)

/-- Model of JS `t.indexOf(q, start)`: the least `i ≥ min start t.length`
at which `q` occurs, `none` standing for `-1`. -/
def jsIndexOf (t q : List Char) (start : Nat) : Option Nat :=
  (List.range' (min start t.length) (t.length + 1 - min start t.length)).find?
    (fun i => matchesAt t q i)

theorem strLower_cons (c : Char) (rest : List Char) :
    strLower (c :: rest) = jsToLowerChar c ++ strLower rest := by
  simp [strLower]

theorem jsToLowerChar_ne_nil (c : Char) : jsToLowerChar c ≠ [] := by
  unfold jsToLowerChar
  split <;> simp

theorem strLower_nil_iff (s : List Char) : strLower s = [] ↔ s = [] := by
  constructor
  · intro h
    cases s with
    | nil => rfl
    | cons c rest =>
      rw [strLower_cons] at h
      exact absurd (List.append_eq_nil.mp h).1 (jsToLowerChar_ne_nil c)
  · intro h
    subst h
    rfl

theorem strLower_length_ge (s : List Char) : s.length ≤ (strLower s).length := by
  induction s with
  | nil => exact Nat.le_refl _
  | cons c rest ih =>
    rw [strLower_cons, List.length_append, List.length_cons]
    have hc : 1 ≤ (jsToLowerChar c).length := by
      unfold jsToLowerChar
      split <;> simp
    omega

theorem jsIndexOf_some (t q : List Char) (start i : Nat)
    (h : jsIndexOf t q start = some i) :
    min start t.length ≤ i ∧ i ≤ t.length ∧ (t.drop i).take q.length = q := by
  have hmem : i ∈ List.range' (min start t.length) (t.length + 1 - min start t.length) :=
    List.mem_of_find?_eq_some h
  have hp : matchesAt t q i = true := List.find?_some h
  rw [List.mem_range'_1] at hmem
  have hle : min start t.length ≤ t.length := Nat.min_le_right _ _
  have hub : i < min start t.length + (t.length + 1 - min start t.length) := hmem.2
  rw [Nat.add_sub_cancel' (Nat.le_trans hle (Nat.le_succ _))] at hub
  refine ⟨hmem.1, Nat.lt_succ_iff.mp hub, ?_⟩
  simp only [matchesAt, Bool.and_eq_true, beq_iff_eq, decide_eq_true_eq] at hp
  exact hp.2

theorem jsIndexOf_some_of_ne (t q : List Char) (start i : Nat) (hq : q ≠ [])
    (h : jsIndexOf t q start = some i) :
    start ≤ i ∧ i + q.length ≤ t.length ∧ (t.drop i).take q.length = q := by
  obtain ⟨hlo, hub, hocc⟩ := jsIndexOf_some t q start i h
  have hlen : q.length ≤ t.length - i := by
    have := congrArg List.length hocc
    simp only [List.length_take, List.length_drop] at this
    omega
  have hq1 : 1 ≤ q.length := by
    cases q with
    | nil => exact absurd rfl hq
    | cons a l => exact Nat.succ_le_succ (Nat.zero_le _)
  refine ⟨?_, by omega, hocc⟩
  rcases Nat.le_total start t.length with hc | hc
  · rwa [Nat.min_eq_left hc] at hlo
  · rw [Nat.min_eq_right hc] at hlo
    omega

theorem jsIndexOf_nil_query (t : List Char) (start : Nat) :
    jsIndexOf t [] start = some (min start t.length) := by
  unfold jsIndexOf
  have hle : min start t.length ≤ t.length := Nat.min_le_right _ _
  have hsub : t.length + 1 - min start t.length = (t.length - min start t.length) + 1 := by
    omega
  rw [hsub, List.range'_succ, List.find?_cons_of_pos]
  simp [matchesAt, hle]

/-- The match-collection `while`-loop of `find_and_replace`
(`while ((index = docText.indexOf(searchText, index)) !== -1)`), with
explicit fuel; `none` models a loop that has not terminated within `fuel`
iterations. Each found index is appended and the scan resumes at
`index + searchText.length`. -/
def collectLoop (t q : List Char) : Nat → Nat → List Nat → Option (List Nat)
  | 0, _, _ => none
  | fuel + 1, idx, acc =>
    match jsIndexOf t q idx with
    | none => some acc
    | some i => collectLoop t q fuel (i + q.length) (acc ++ [i])

/-- Match collection of `find_and_replace`: lowers both needle and haystack
when `matchCase` is false, then scans the (possibly lowered) document text. -/
def findAndReplaceMatches (documentText findText : List Char) (matchCase : Bool) :
    Option (List Nat) :=
  let searchText := if matchCase then findText else strLower findText
  let docText := if matchCase then documentText else strLower documentText
  collectLoop docText searchText (docText.length + 1) 0 []

theorem collectLoop_empty_needle (t : List Char) :
    ∀ (fuel idx : Nat) (acc : List Nat), collectLoop t [] fuel idx acc = none := by
  intro fuel
  induction fuel with
  | zero => intro idx acc; rfl
  | succ n ih =>
    intro idx acc
    simp only [collectLoop, jsIndexOf_nil_query]
    exact ih _ _

theorem collectLoop_terminates (t q : List Char) (hq : q ≠ []) :
    ∀ (fuel idx : Nat) (acc : List Nat), idx ≤ t.length →
      t.length + 1 ≤ idx + fuel → (collectLoop t q fuel idx acc).isSome = true := by
  intro fuel
  induction fuel with
  | zero => intro idx acc h1 h2; omega
  | succ n ih =>
    intro idx acc h1 h2
    simp only [collectLoop]
    cases hfind : jsIndexOf t q idx with
    | none => rfl
    | some i =>
      obtain ⟨hge, hfit, _⟩ := jsIndexOf_some_of_ne t q idx i hq hfind
      have hq1 : 1 ≤ q.length := by
        cases q with
        | nil => exact absurd rfl hq
        | cons a l => exact Nat.succ_le_succ (Nat.zero_le _)
      exact ih (i + q.length) (acc ++ [i]) (by omega) (by omega)

theorem collectLoop_sound (t q : List Char) (hq : q ≠ []) :
    ∀ (fuel idx : Nat) (acc ms : List Nat),
      collectLoop t q fuel idx acc = some ms →
      (∀ m ∈ acc, (t.drop m).take q.length = q ∧ m + q.length ≤ t.length) →
      ∀ m ∈ ms, (t.drop m).take q.length = q ∧ m + q.length ≤ t.length := by
  intro fuel
  induction fuel with
  | zero => intro idx acc ms h; exact absurd h (by simp [collectLoop])
  | succ n ih =>
    intro idx acc ms h hacc
    simp only [collectLoop] at h
    cases hfind : jsIndexOf t q idx with
    | none =>
      rw [hfind] at h
      have hms : acc = ms := by simpa using h
      intro m hm
      exact hacc m (by rw [hms]; exact hm)
    | some i =>
      rw [hfind] at h
      obtain ⟨_, hfit, hocc⟩ := jsIndexOf_some_of_ne t q idx i hq hfind
      refine ih _ _ _ h ?_
      intro m hm
      rcases List.mem_append.mp hm with hm | hm
      · exact hacc m hm
      · rw [List.mem_singleton.mp hm]
        exact ⟨hocc, hfit⟩

theorem collectLoop_chain (t q : List Char) (hq : q ≠ []) :
    ∀ (fuel idx : Nat) (acc ms : List Nat),
      collectLoop t q fuel idx acc = some ms →
      List.Chain' (fun a b => a + q.length ≤ b) acc →
      (∀ a ∈ acc, a + q.length ≤ idx) →
      List.Chain' (fun a b => a + q.length ≤ b) ms := by
  intro fuel
  induction fuel with
  | zero => intro idx acc ms h; exact absurd h (by simp [collectLoop])
  | succ n ih =>
    intro idx acc ms h hchain hbelow
    simp only [collectLoop] at h
    cases hfind : jsIndexOf t q idx with
    | none =>
      rw [hfind] at h
      have hms : acc = ms := by simpa using h
      exact hms ▸ hchain
    | some i =>
      rw [hfind] at h
      obtain ⟨hge, _, _⟩ := jsIndexOf_some_of_ne t q idx i hq hfind
      refine ih _ _ _ h ?_ ?_
      · rw [List.chain'_append]
        refine ⟨hchain, List.chain'_singleton _, ?_⟩
        intro x hx y hy
        rw [List.head?_cons, Option.mem_some_iff] at hy
        subst hy
        exact Nat.le_trans (hbelow x (List.mem_of_mem_getLast? hx)) hge
      · intro a ha
        rcases List.mem_append.mp ha with ha | ha
        · exact Nat.le_trans (hbelow a ha) (Nat.le_trans hge (Nat.le_add_right _ _))
        · rw [List.mem_singleton.mp ha]

/-- A `range` object of a `deleteContentRange` batchUpdate request. -/
structure DocRange where
  startIndex : Nat
  endIndex : Nat

deriving instance DecidableEq, Repr for DocRange

/-- A batchUpdate request emitted by `find_and_replace`: either a
`deleteContentRange` or an `insertText` at a location index. -/
inductive Request where
  | deleteContentRange : DocRange → Request
  | insertText : Nat → List Char → Request

deriving instance DecidableEq, Repr for Request

/-- Model of `matches.sort((a, b) => b - a)`: sort in descending order
(the match indices are pairwise distinct, so any descending sort agrees
with the JS comparator sort). -/
def sortDesc (ms : List Nat) : List Nat :=
  ms.insertionSort (· ≥ ·)

/-- The request-building loop of `find_and_replace`: for each match index
(in the sorted order) emit a `deleteContentRange` over
`[matchIndex, matchIndex + findText.length)` followed by an `insertText` of
the replacement at `matchIndex`, incrementing `replacementsCount`; when
`replaceAll` is false the loop breaks once `replacementsCount >= 1`. -/
def planLoop (qlen : Nat) (rep : List Char) (replaceAll : Bool) :
    List Nat → Nat → List Request × Nat
  | [], count => ([], count)
  | m :: rest, count =>
    if !replaceAll && decide (1 ≤ count) then ([], count)
    else
      let next := planLoop qlen rep replaceAll rest (count + 1)
      (Request.deleteContentRange ⟨m, m + qlen⟩ :: Request.insertText m rep :: next.1,
       next.2)

/-- Core of the `find_and_replace` tool handler (media.ts): collect matches
(possibly case-folded), return early with no requests when there are none,
otherwise sort the match indices in reverse order and build the delete+insert
request pairs. `none` models the handler never returning (its scan loop does
not terminate). The pair is (requests, replacementsCount). -/
def find_and_replace (documentText findText replaceText : List Char)
    (matchCase replaceAll : Bool) : Option (List Request × Nat) :=
  match findAndReplaceMatches documentText findText matchCase with
  | none => none
  | some ms =>
    if ms.isEmpty then some ([], 0)
    else some (planLoop findText.length replaceText replaceAll (sortDesc ms) 0)

theorem planLoop_replaceAll (qlen : Nat) (rep : List Char) :
    ∀ (l : List Nat) (count : Nat),
      planLoop qlen rep true l count =
        (l.flatMap (fun m =>
          [Request.deleteContentRange ⟨m, m + qlen⟩, Request.insertText m rep]),
         count + l.length) := by
  intro l
  induction l with
  | nil => intro count; rfl
  | cons m rest ih =>
    intro count
    simp only [planLoop]
    split
    · rename_i hcond
      simp at hcond
    · simp only [ih, List.flatMap_cons, List.cons_append, List.nil_append,
        List.length_cons, Prod.mk.injEq]
      exact ⟨trivial, by omega⟩

theorem planLoop_single (qlen : Nat) (rep : List Char) (m : Nat) (rest : List Nat) :
    planLoop qlen rep false (m :: rest) 0 =
      ([Request.deleteContentRange ⟨m, m + qlen⟩, Request.insertText m rep], 1) := by
  cases rest with
  | nil => rfl
  | cons x l => rfl

theorem sortDesc_perm (ms : List Nat) : List.Perm (sortDesc ms) ms :=
  List.perm_insertionSort _ _

theorem sortDesc_sorted (ms : List Nat) : List.Sorted (· ≥ ·) (sortDesc ms) :=
  List.sorted_insertionSort _ _

theorem chain_gap_pairwise (ms : List Nat) (k : Nat) (hk : 1 ≤ k)
    (h : List.Chain' (fun a b => a + k ≤ b) ms) : List.Pairwise (· < ·) ms := by
  have h2 : List.Chain' (fun a b : Nat => a < b) ms :=
    List.Chain'.imp (fun a b hab => by omega) h
  exact List.chain'_iff_pairwise.mp h2

/-- A match reported by `search_text_in_document`: half-open range plus a
context excerpt of the original document text. -/
structure SearchMatch where
  startIndex : Nat
  endIndex : Nat
  context : List Char

deriving instance DecidableEq, Repr for SearchMatch

/-- The search `while`-loop of `search_text_in_document`: scan the (possibly
lowered) document text for the (possibly lowered) needle, stopping when the
needle is absent or `maxResults` matches are collected; each match records
`[index, index + searchText.length)` and a context window of the original
text (`max(0, index - 20)` to `min(length, index + searchText.length + 20)`).
Fuel-explicit; `none` models a non-terminated loop. -/
def searchLoop (documentText docTextLower searchTextLower : List Char)
    (qlen maxResults : Nat) : Nat → Nat → List SearchMatch → Option (List SearchMatch)
  | 0, _, _ => none
  | fuel + 1, idx, acc =>
    match jsIndexOf docTextLower searchTextLower idx with
    | none => some acc
    | some i =>
      if decide (acc.length < maxResults) then
        searchLoop documentText docTextLower searchTextLower qlen maxResults fuel
          (i + qlen)
          (acc ++ [⟨i, i + qlen, seg documentText (i - 20)
            (min documentText.length (i + qlen + 20))⟩])
      else some acc

/-- Core of the `search_text_in_document` tool handler (media.ts), including
the `maxResults || 10` defaulting of the result cap. -/
def search_text_in_document (documentText searchText : List Char) (matchCase : Bool)
    (maxResults : Nat) : Option (List SearchMatch) :=
  let searchTextLower := if matchCase then searchText else strLower searchText
  let docTextLower := if matchCase then documentText else strLower documentText
  let effMax := if maxResults = 0 then 10 else maxResults
  searchLoop documentText docTextLower searchTextLower searchText.length effMax
    (effMax + 1) 0 []

theorem searchLoop_sound (T tl ql : List Char) (qlen maxR : Nat) (hq : ql ≠ []) :
    ∀ (fuel idx : Nat) (acc sms : List SearchMatch),
      searchLoop T tl ql qlen maxR fuel idx acc = some sms →
      (∀ sm ∈ acc, (tl.drop sm.startIndex).take ql.length = ql ∧
        sm.endIndex = sm.startIndex + qlen) →
      ∀ sm ∈ sms, (tl.drop sm.startIndex).take ql.length = ql ∧
        sm.endIndex = sm.startIndex + qlen := by
  intro fuel
  induction fuel with
  | zero => intro idx acc sms h; exact absurd h (by simp [searchLoop])
  | succ n ih =>
    intro idx acc sms h hacc
    simp only [searchLoop] at h
    split at h
    · have hsm : acc = sms := by simpa using h
      intro sm hm
      exact hacc sm (by rw [hsm]; exact hm)
    · rename_i i hfind
      obtain ⟨_, hfit, hocc⟩ := jsIndexOf_some_of_ne tl ql idx i hq hfind
      split at h
      · refine ih _ _ _ h ?_
        intro sm hm
        rcases List.mem_append.mp hm with hm | hm
        · exact hacc sm hm
        · rw [List.mem_singleton.mp hm]
          exact ⟨hocc, rfl⟩
      · have hsm : acc = sms := by simpa using h
        intro sm hm
        exact hacc sm (by rw [hsm]; exact hm)

theorem searchLoop_chain (T tl ql : List Char) (qlen maxR : Nat) (hq : ql ≠ []) :
    ∀ (fuel idx : Nat) (acc sms : List SearchMatch),
      searchLoop T tl ql qlen maxR fuel idx acc = some sms →
      List.Chain' (fun a b => a.endIndex ≤ b.startIndex) acc →
      (∀ a ∈ acc, a.endIndex ≤ idx) →
      List.Chain' (fun a b => a.endIndex ≤ b.startIndex) sms := by
  intro fuel
  induction fuel with
  | zero => intro idx acc sms h; exact absurd h (by simp [searchLoop])
  | succ n ih =>
    intro idx acc sms h hchain hbelow
    simp only [searchLoop] at h
    split at h
    · have hsm : acc = sms := by simpa using h
      exact hsm ▸ hchain
    · rename_i i hfind
      obtain ⟨hge, _, _⟩ := jsIndexOf_some_of_ne tl ql idx i hq hfind
      split at h
      · refine ih _ _ _ h ?_ ?_
        · rw [List.chain'_append]
          refine ⟨hchain, List.chain'_singleton _, ?_⟩
          intro x hx y hy
          rw [List.head?_cons, Option.mem_some_iff] at hy
          subst hy
          exact Nat.le_trans (hbelow x (List.mem_of_mem_getLast? hx)) hge
        · intro a ha
          rcases List.mem_append.mp ha with ha | ha
          · exact Nat.le_trans (hbelow a ha) (Nat.le_trans hge (Nat.le_add_right _ _))
          · rw [List.mem_singleton.mp ha]
      · have hsm : acc = sms := by simpa using h
        exact hsm ▸ hchain

/-- A paragraph element of the fetched Google Docs document: the document
start index the store assigns to it, and the optional `textRun.content`
payload (absent text runs contribute nothing to the extracted text). -/
structure ParagraphElement where
  startIndex : Nat
  textRunContent : Option (List Char)

deriving instance DecidableEq, Repr for ParagraphElement

/-- A paragraph block: `element.paragraph.elements`. -/
structure Paragraph where
  elements : List ParagraphElement

deriving instance DecidableEq, Repr for Paragraph

/-- A structural element of the document body: a paragraph, or any other
block (table, section break, ...), which the extraction loops skip. -/
inductive StructuralElement where
  | paragraph : Paragraph → StructuralElement
  | other : StructuralElement

deriving instance DecidableEq, Repr for StructuralElement

/-- Text contributed by one paragraph: concatenation of the present
`textRun.content` payloads of its elements, in order. -/
def paragraphText (p : Paragraph) : List Char :=
  p.elements.foldl (fun s e => s ++ e.textRunContent.getD []) []

/-- The flat-text extraction loop shared by `find_and_replace`,
`search_text_in_document` and `get_word_count`: concatenate the text runs of
every paragraph element of the body content, skipping non-paragraph blocks. -/
def extractText (content : List StructuralElement) : List Char :=
  content.foldl (fun s e =>
    match e with
    | .paragraph p => s ++ paragraphText p
    | .other => s) []

/-- The paragraph counter of `get_word_count`. -/
def countParagraphs (content : List StructuralElement) : Nat :=
  (content.filter (fun e =>
    match e with
    | .paragraph _ => true
    | .other => false)).length

/-- Model of the JS regular-expression class `\s`, restricted to the common
ASCII whitespace characters. -/
def jsIsSpace (c : Char) : Bool :=
  c == ' ' || c == '\t' || c == '\n' || c == '\r'

/-- Model of JS `String.prototype.trim`: strip leading and trailing
whitespace. -/
def jsTrim (l : List Char) : List Char :=
  ((l.dropWhile jsIsSpace).reverse.dropWhile jsIsSpace).reverse

theorem dropWhile_head_false (p : Char → Bool) (l : List Char) (c : Char)
    (cs : List Char) (h : l.dropWhile p = c :: cs) : p c = false := by
  induction l with
  | nil => simp at h
  | cons a l ih =>
    by_cases ha : p a = true
    · rw [List.dropWhile_cons_of_pos ha] at h
      exact ih h
    · rw [List.dropWhile_cons_of_neg ha] at h
      injection h with h1 h2
      subst h1
      simpa using ha

/-- Model of JS `s.split(/\s+/)`: cut at every maximal whitespace run; a
leading or trailing run contributes an empty field, and the empty string
splits to one empty field. -/
def splitWs (l : List Char) : List (List Char) :=
  if l = [] then [[]]
  else
    if h2 : l.dropWhile (fun c => !jsIsSpace c) = [] then
      [l.takeWhile (fun c => !jsIsSpace c)]
    else
      l.takeWhile (fun c => !jsIsSpace c) ::
        splitWs ((l.dropWhile (fun c => !jsIsSpace c)).dropWhile jsIsSpace)
termination_by l.length
decreasing_by
  cases hr : l.dropWhile (fun c => !jsIsSpace c) with
  | nil => exact absurd hr h2
  | cons c cs =>
    have hsub : (l.dropWhile (fun c => !jsIsSpace c)).length ≤ l.length :=
      (List.dropWhile_sublist _).length_le
    rw [hr] at hsub
    have : ((c :: cs).dropWhile jsIsSpace).length ≤ cs.length := by
      have hc : jsIsSpace c = true := by
        have := dropWhile_head_false (fun c => !jsIsSpace c) l c cs hr
        simpa using this
      rw [List.dropWhile_cons_of_pos hc]
      exact (List.dropWhile_sublist _).length_le
    simp only [List.length_cons] at hsub
    omega

/-- The structured statistics computed by `get_word_count`. -/
structure DocStats where
  wordCount : Nat
  characterCount : Nat
  characterCountNoSpaces : Nat
  paragraphCount : Nat

deriving instance DecidableEq, Repr for DocStats

/-- Core of the `get_word_count` tool handler (media.ts): extract the flat
text, then `wordCount = text.trim().split(\s+).filter(w => w.length > 0).length`,
`characterCount = text.length`, `characterCountNoSpaces` strips whitespace,
and `paragraphCount` counts paragraph blocks. -/
def get_word_count (content : List StructuralElement) : DocStats :=
  let documentText := extractText content
  { wordCount :=
      ((splitWs (jsTrim documentText)).filter (fun w => decide (0 < w.length))).length,
    characterCount := documentText.length,
    characterCountNoSpaces := (documentText.filter (fun c => !jsIsSpace c)).length,
    paragraphCount := countParagraphs content }

theorem jsTrim_all_space (l : List Char) (h : ∀ c ∈ l, jsIsSpace c = true) :
    jsTrim l = [] := by
  unfold jsTrim
  rw [List.dropWhile_eq_nil_iff.mpr h]
  rfl

/-- The NUL character removed by sanitizeText. -/
def nullChar : Char := Char.ofNat 0

/-- The single-quote character escaped by sanitizeSearchQuery. -/
def quoteChar : Char := Char.ofNat 39

/-- The backslash character inserted by sanitizeSearchQuery. -/
def backslashChar : Char := Char.ofNat 92

/-- Unicode NFC normalization (`text.normalize` in validation.ts), modelled
as the identity on the code-point sequence (the characters this development
reasons about are ASCII, which NFC leaves unchanged). -/
def normalizeNFC (l : List Char) : List Char := l

/-- sanitizeText from validation.ts: the empty string for non-string input
(`none`), otherwise remove null bytes and NFC-normalize. -/
def sanitizeText : Option (List Char) → List Char
  | none => []
  | some text => normalizeNFC (text.filter (fun c => c != nullChar))

/-- The quote-escaping replace of sanitizeSearchQuery:
each single quote becomes backslash-quote. -/
def escapeSingleQuotes (l : List Char) : List Char :=
  l.flatMap (fun c => if c == quoteChar then [backslashChar, quoteChar] else [c])

/-- The dangerous-character removal of sanitizeSearchQuery:
drop every angle bracket. -/
def removeAngleBrackets (l : List Char) : List Char :=
  l.filter (fun c => c != '<' && c != '>')

/-- sanitizeSearchQuery from validation.ts: the empty string for non-string
input, otherwise escape single quotes, remove angle brackets, and pass the
result through sanitizeText. -/
def sanitizeSearchQuery : Option (List Char) → List Char
  | none => []
  | some query => sanitizeText (some (removeAngleBrackets (escapeSingleQuotes query)))

/-- Scanning check that every single-quote character of the list is
immediately preceded by a backslash character. -/
def quotesEscaped : List Char → Bool
  | [] => true
  | [c] => !(c == quoteChar)
  | c :: d :: rest =>
    if c == quoteChar then false
    else if c == backslashChar && d == quoteChar then quotesEscaped rest
    else quotesEscaped (d :: rest)

theorem quotesEscaped_cons (c : Char) (xs : List Char) (hc : (c == quoteChar) = false)
    (hxs : quotesEscaped xs = true) : quotesEscaped (c :: xs) = true := by
  cases xs with
  | nil => simp [quotesEscaped, hc]
  | cons d rest =>
    by_cases hbd : (c == backslashChar && d == quoteChar) = true
    · exfalso
      have hd : (d == quoteChar) = true := (Bool.and_eq_true _ _ |>.mp hbd).2
      cases rest with
      | nil =>
        rw [show quotesEscaped [d] = !(d == quoteChar) from rfl, hd] at hxs
        simp at hxs
      | cons e r =>
        rw [show quotesEscaped (d :: e :: r) =
          (if d == quoteChar then false
           else if d == backslashChar && e == quoteChar then quotesEscaped r
           else quotesEscaped (e :: r)) from rfl, if_pos hd] at hxs
        simp at hxs
    · rw [show quotesEscaped (c :: d :: rest) =
        (if c == quoteChar then false
         else if c == backslashChar && d == quoteChar then quotesEscaped rest
         else quotesEscaped (d :: rest)) from rfl, if_neg (by simp [hc]), if_neg hbd]
      exact hxs

theorem quotesEscaped_pair (X : List Char) :
    quotesEscaped (backslashChar :: quoteChar :: X) = quotesEscaped X := by
  rw [show quotesEscaped (backslashChar :: quoteChar :: X) =
    (if backslashChar == quoteChar then false
     else if backslashChar == backslashChar && quoteChar == quoteChar then quotesEscaped X
     else quotesEscaped (quoteChar :: X)) from rfl]
  rw [if_neg (by decide), if_pos (by decide)]

theorem escapeFilter_escaped (q : List Char) :
    quotesEscaped (((escapeSingleQuotes q).filter (fun c => c != '<' && c != '>')).filter
      (fun c => c != nullChar)) = true := by
  induction q with
  | nil => rfl
  | cons c l ih =>
    rw [show escapeSingleQuotes (c :: l) =
      (if c == quoteChar then [backslashChar, quoteChar] else [c]) ++ escapeSingleQuotes l
      from by simp [escapeSingleQuotes]]
    rw [List.filter_append, List.filter_append]
    by_cases hc : (c == quoteChar) = true
    · rw [if_pos hc]
      rw [show (([backslashChar, quoteChar].filter (fun x => x != '<' && x != '>')).filter
        (fun x => x != nullChar)) = [backslashChar, quoteChar] from by decide]
      rw [List.cons_append, List.cons_append, List.nil_append, quotesEscaped_pair]
      exact ih
    · rw [if_neg hc]
      have hsplit : (([c].filter (fun x => x != '<' && x != '>')).filter
          (fun x => x != nullChar)) = [c] ∨
          (([c].filter (fun x => x != '<' && x != '>')).filter
          (fun x => x != nullChar)) = [] := by
        simp only [List.filter_cons, List.filter_nil]
        by_cases hA : ((c != '<' && c != '>') = true)
        · rw [if_pos hA]
          simp only [List.filter_cons, List.filter_nil]
          by_cases hB : ((c != nullChar) = true)
          · rw [if_pos hB]
            exact Or.inl rfl
          · rw [if_neg hB]
            exact Or.inr rfl
        · rw [if_neg hA]
          exact Or.inr rfl
      rcases hsplit with hsplit | hsplit
      · rw [hsplit, List.singleton_append]
        exact quotesEscaped_cons c _ (Bool.eq_false_iff.mpr hc) ih
      · rw [hsplit, List.nil_append]
        exact ih

theorem sanitizeSearchQuery_some_eq (q : List Char) :
    sanitizeSearchQuery (some q) =
      ((escapeSingleQuotes q).filter (fun c => c != '<' && c != '>')).filter
        (fun c => c != nullChar) := rfl

/-- Effect of one batchUpdate request on the flat text, with the document
store modelled as splicing on the extracted text: `deleteContentRange`
removes the half-open range, `insertText` splices the text in at the index. -/
def applyRequest (t : List Char) : Request → List Char
  | .deleteContentRange r => t.take r.startIndex ++ t.drop r.endIndex
  | .insertText i s => t.take i ++ s ++ t.drop i

/-- Sequential application of a batch of requests, in list order. -/
def applyRequests (t : List Char) (reqs : List Request) : List Char :=
  reqs.foldl applyRequest t

theorem applyPair_length (t : List Char) (m qlen : Nat) (rep : List Char)
    (hfit : m + qlen ≤ t.length) (hlen : rep.length = qlen) :
    (applyRequest (applyRequest t (Request.deleteContentRange ⟨m, m + qlen⟩))
      (Request.insertText m rep)).length = t.length := by
  simp only [applyRequest, List.length_append, List.length_take, List.length_drop,
    List.length_take]
  omega

theorem applyPairs_length (qlen : Nat) (rep : List Char) (hlen : rep.length = qlen) :
    ∀ (L : List Nat) (t : List Char), (∀ m ∈ L, m + qlen ≤ t.length) →
      (applyRequests t (L.flatMap (fun m =>
        [Request.deleteContentRange ⟨m, m + qlen⟩, Request.insertText m rep]))).length
        = t.length := by
  intro L
  induction L with
  | nil => intro t h; rfl
  | cons m rest ih =>
    intro t h
    have hm : m + qlen ≤ t.length := h m (List.mem_cons_self _ _)
    have h2 := applyPair_length t m qlen rep hm hlen
    have hstep : applyRequests t ((m :: rest).flatMap (fun m =>
        [Request.deleteContentRange ⟨m, m + qlen⟩, Request.insertText m rep])) =
        applyRequests (applyRequest (applyRequest t
          (Request.deleteContentRange ⟨m, m + qlen⟩)) (Request.insertText m rep))
          (rest.flatMap (fun m =>
            [Request.deleteContentRange ⟨m, m + qlen⟩, Request.insertText m rep])) := rfl
    rw [hstep, ih _ (fun m' hm' => by rw [h2]; exact h m' (List.mem_cons_of_mem _ hm'))]
    exact h2

theorem planLoop_mem (qlen : Nat) (rep : List Char) (ra : Bool) :
    ∀ (l : List Nat) (count : Nat) (r : Request), r ∈ (planLoop qlen rep ra l count).1 →
      ∃ m ∈ l, r = Request.deleteContentRange ⟨m, m + qlen⟩ ∨
        r = Request.insertText m rep := by
  intro l
  induction l with
  | nil => intro count r h; exact absurd h (by simp [planLoop])
  | cons m rest ih =>
    intro count r h
    simp only [planLoop] at h
    split at h
    · exact absurd h (by simp)
    · rcases List.mem_cons.mp h with hr | h
      · exact ⟨m, List.mem_cons_self _ _, Or.inl hr⟩
      rcases List.mem_cons.mp h with hr | h
      · exact ⟨m, List.mem_cons_self _ _, Or.inr hr⟩
      obtain ⟨m', hm', hr⟩ := ih (count + 1) r h
      exact ⟨m', List.mem_cons_of_mem _ hm', hr⟩

/-- A run of the spec's Run-Length Text Extractor: a flat-text range and the
corresponding document-index range. -/
structure SpecRun where
  flatStart : Nat
  flatEnd : Nat
  docStart : Nat
  docEnd : Nat

deriving instance DecidableEq, Repr for SpecRun

/-- Definition following the spec's words (Run-Length Text Extractor): for
every contributing text-run payload of a paragraph, append its text to the
flat buffer and record a run mapping the new flat range to the payload's
supplied document-index range. The state is (flat length so far, runs). -/
def specRunsPara (p : Paragraph) (st : Nat × List SpecRun) : Nat × List SpecRun :=
  p.elements.foldl (fun st e =>
    match e.textRunContent with
    | none => st
    | some s =>
      (st.1 + s.length,
       st.2 ++ [⟨st.1, st.1 + s.length, e.startIndex, e.startIndex + s.length⟩])) st

/-- Definition following the spec's words: the run table over the whole body
content, non-text blocks skipped. -/
def specRuns (content : List StructuralElement) : List SpecRun :=
  (content.foldl (fun st e =>
    match e with
    | .paragraph p => specRunsPara p st
    | .other => st) ((0 : Nat), ([] : List SpecRun))).2

/-- Definition following the spec's words (Offset Mapper): locate the run
containing `flatStart` and return `run.docStart + (flatStart - run.flatStart)`. -/
def specMapFlatToDoc (runs : List SpecRun) (flatStart : Nat) : Option Nat :=
  match runs.find? (fun r =>
    decide (r.flatStart ≤ flatStart) && decide (flatStart < r.flatEnd)) with
  | none => none
  | some r => some (r.docStart + (flatStart - r.flatStart))

/-- The find_and_replace handler as invoked on a fetched document: extract
the flat text from the body content, then search and plan on it. -/
def findAndReplaceOnDocument (content : List StructuralElement)
    (findText replaceText : List Char) (matchCase replaceAll : Bool) :
    Option (List Request × Nat) :=
  find_and_replace (extractText content) findText replaceText matchCase replaceAll

theorem findAndReplaceMatches_false_eq (T Q : List Char) :
    findAndReplaceMatches T Q false =
      collectLoop (strLower T) (strLower Q) ((strLower T).length + 1) 0 [] := rfl

theorem findAndReplaceMatches_true_eq (T Q : List Char) :
    findAndReplaceMatches T Q true = collectLoop T Q (T.length + 1) 0 [] := rfl

theorem findAndReplaceMatches_ne_nil_query (T Q : List Char) (mc : Bool)
    (ms : List Nat) (h : findAndReplaceMatches T Q mc = some ms) : Q ≠ [] := by
  intro hQ
  subst hQ
  cases mc
  · rw [findAndReplaceMatches_false_eq, show strLower [] = [] from rfl,
      collectLoop_empty_needle] at h
    exact Option.noConfusion h
  · rw [findAndReplaceMatches_true_eq, collectLoop_empty_needle] at h
    exact Option.noConfusion h

theorem findAndReplaceMatches_chain (T Q : List Char) (mc : Bool) (ms : List Nat)
    (h : findAndReplaceMatches T Q mc = some ms) :
    List.Chain' (fun a b => a + Q.length ≤ b) ms := by
  have hQ : Q ≠ [] := findAndReplaceMatches_ne_nil_query T Q mc ms h
  cases mc
  · rw [findAndReplaceMatches_false_eq] at h
    have hq' : strLower Q ≠ [] := fun hc => hQ ((strLower_nil_iff Q).mp hc)
    have hchain := collectLoop_chain (strLower T) (strLower Q) hq' _ _ _ _ h
      List.chain'_nil (by simp)
    refine List.Chain'.imp ?_ hchain
    intro a b hab
    have := strLower_length_ge Q
    omega
  · rw [findAndReplaceMatches_true_eq] at h
    exact collectLoop_chain T Q hQ _ _ _ _ h List.chain'_nil (by simp)

theorem find_and_replace_eq (T Q R : List Char) (mc ra : Bool) (ms : List Nat)
    (hm : findAndReplaceMatches T Q mc = some ms) (hne : ms ≠ []) :
    find_and_replace T Q R mc ra =
      some (planLoop Q.length R ra (sortDesc ms) 0) := by
  unfold find_and_replace
  rw [hm]
  show (if ms.isEmpty = true then some (([] : List Request), (0 : Nat))
    else some (planLoop Q.length R ra (sortDesc ms) 0)) =
    some (planLoop Q.length R ra (sortDesc ms) 0)
  rw [if_neg (by simpa [List.isEmpty_iff] using hne)]

theorem sortDesc_ne_nil (ms : List Nat) (hne : ms ≠ []) : sortDesc ms ≠ [] := by
  intro hc
  have := sortDesc_perm ms
  rw [hc] at this
  exact hne this.symm.eq_nil

theorem sortDesc_head_max (ms : List Nat) (M : Nat) (rest : List Nat)
    (h : sortDesc ms = M :: rest) : M ∈ ms ∧ ∀ x ∈ ms, x ≤ M := by
  have hperm := sortDesc_perm ms
  rw [h] at hperm
  refine ⟨hperm.mem_iff.mp (List.mem_cons_self _ _), ?_⟩
  intro x hx
  rcases List.mem_cons.mp (hperm.mem_iff.mpr hx) with hx' | hx'
  · exact le_of_eq hx'
  · have hsorted := sortDesc_sorted ms
    rw [h] at hsorted
    exact List.rel_of_sorted_cons hsorted x hx'

/-- The largest element of a list of match indices (0 for the empty list). -/
def listMax (ms : List Nat) : Nat := ms.foldr max 0

theorem listMax_spec (ms : List Nat) (hne : ms ≠ []) :
    listMax ms ∈ ms ∧ ∀ x ∈ ms, x ≤ listMax ms := by
  induction ms with
  | nil => exact absurd rfl hne
  | cons m rest ih =>
    by_cases hr : rest = []
    · subst hr
      refine ⟨?_, ?_⟩
      · simp [listMax]
      · intro x hx
        rw [List.mem_singleton.mp hx]
        simp [listMax]
    · obtain ⟨hmem, hbound⟩ := ih hr
      have hfold : listMax (m :: rest) = max m (listMax rest) := rfl
      refine ⟨?_, ?_⟩
      · rcases Nat.le_total m (listMax rest) with hc | hc
        · rw [hfold, Nat.max_eq_right hc]
          exact List.mem_cons_of_mem _ hmem
        · rw [hfold, Nat.max_eq_left hc]
          exact List.mem_cons_self _ _
      · intro x hx
        rcases List.mem_cons.mp hx with hx | hx
        · rw [hfold, hx]
          exact Nat.le_max_left _ _
        · exact Nat.le_trans (hbound x hx) (by rw [hfold]; exact Nat.le_max_right _ _)

theorem sortDesc_pairwise_gt (Q : List Char) (ms : List Nat) (hQ : Q ≠ [])
    (hchain : List.Chain' (fun a b => a + Q.length ≤ b) ms) :
    List.Chain' (fun a b : Nat => b < a) (sortDesc ms) := by
  have hq1 : 1 ≤ Q.length := by
    cases Q with
    | nil => exact absurd rfl hQ
    | cons a l => exact Nat.succ_le_succ (Nat.zero_le _)
  have hlt : List.Pairwise (· < ·) ms := chain_gap_pairwise ms Q.length hq1 hchain
  have hnodup : ms.Nodup := hlt.imp Nat.ne_of_lt
  have hnodup' : (sortDesc ms).Nodup := (sortDesc_perm ms).symm.nodup hnodup
  have hsorted : List.Pairwise (fun a b : Nat => b ≤ a) (sortDesc ms) :=
    sortDesc_sorted ms
  have hand := hsorted.and hnodup'
  exact List.Pairwise.chain' (hand.imp (fun hab => by omega))

/-- A document text whose case folding is longer than the original: U+0130
followed by "ab" folds to "i", U+0307, "a", "b" (four units for three). -/
def foldExpandingText : List Char := [capitalIWithDot, 'a', 'b']

/-- C1 (code bug): with matchCase = false the offsets are measured against
the case-folded copy, not the original text. On T = U+0130 "ab" (three
units, folding to four), the query "ab" is reported at [2, 4) by both
find_and_replace and search_text_in_document, yet lower(T[2:4]) = "b" is
not lower("ab") — the claimed offset property fails on the program. -/
theorem c1_folded_offsets_bug :
    findAndReplaceMatches foldExpandingText ("ab".toList) false = some [2] ∧
    search_text_in_document foldExpandingText ("ab".toList) false 10 =
      some [⟨2, 4, foldExpandingText⟩] ∧
    strLower (seg foldExpandingText 2 4) ≠ strLower ("ab".toList) := by
  decide

/-- C2 counterexample: on document text "ab ab" with findText "ab" and
replaceAll = false, the matches are [0, 3] with the first match in document
order at [0, 2), yet the emitted plan deletes [3, 5) and inserts at 3 — the
second match — and contains no operation touching the first match. -/
theorem c2_counterexample :
    find_and_replace ("ab ab".toList) ("ab".toList) ("X".toList) true false =
      some ([Request.deleteContentRange ⟨3, 5⟩, Request.insertText 3 ("X".toList)], 1) ∧
    Request.deleteContentRange ⟨0, 2⟩ ∉
      [Request.deleteContentRange ⟨3, 5⟩, Request.insertText 3 ("X".toList)] ∧
    Request.insertText 0 ("X".toList) ∉
      [Request.deleteContentRange ⟨3, 5⟩, Request.insertText 3 ("X".toList)] := by
  decide

/-- C2 (amended): when replaceAll is false and matches exist, the planner
plans exactly one delete+insert pair, at the match with the highest document
index — the last match in document order, not the first — leaving every
other match untouched. -/
theorem c2_only_last_match_planned (T Q R : List Char) (mc : Bool) (ms : List Nat)
    (reqs : List Request) (n : Nat)
    (hm : findAndReplaceMatches T Q mc = some ms) (hne : ms ≠ [])
    (hp : find_and_replace T Q R mc false = some (reqs, n)) :
    reqs = [Request.deleteContentRange ⟨listMax ms, listMax ms + Q.length⟩,
      Request.insertText (listMax ms) R] ∧ n = 1 := by
  rw [find_and_replace_eq T Q R mc false ms hm hne] at hp
  cases hsd : sortDesc ms with
  | nil => exact absurd hsd (sortDesc_ne_nil ms hne)
  | cons M rest =>
    rw [hsd, planLoop_single] at hp
    obtain ⟨hmem, hmax⟩ := sortDesc_head_max ms M rest hsd
    obtain ⟨hmem2, hmax2⟩ := listMax_spec ms hne
    have hM : M = listMax ms := Nat.le_antisymm (hmax2 M hmem) (hmax _ hmem2)
    subst hM
    injection hp with hp
    injection hp with hreq hcount
    exact ⟨hreq.symm, hcount.symm⟩

/-- C2 witness: on "ab ab" with findText "ab" the matches are [0, 3]; with
replaceAll = false the plan is the single pair at listMax [0, 3] = 3. -/
theorem c2_witness :
    [Request.deleteContentRange ⟨3, 5⟩, Request.insertText 3 ("X".toList)] =
      [Request.deleteContentRange ⟨listMax [0, 3], listMax [0, 3] + ("ab".toList).length⟩,
       Request.insertText (listMax [0, 3]) ("X".toList)] ∧ (1 : Nat) = 1 :=
  c2_only_last_match_planned ("ab ab".toList) ("ab".toList) ("X".toList) true [0, 3]
    [Request.deleteContentRange ⟨3, 5⟩, Request.insertText 3 ("X".toList)] 1
    (by decide) (by decide) (by decide)

/-- C3 (code bug): an empty query is not rejected with an InvalidQuery
error: the find_and_replace match scan never terminates on an empty findText
(the loop state never advances, so the collection loop is still running at
every fuel), and search_text_in_document terminates only because of its
result cap, returning degenerate empty-range matches instead of failing. -/
theorem c3_empty_query_not_rejected :
    (∀ (T : List Char) (mc : Bool), findAndReplaceMatches T [] mc = none) ∧
    (∀ (T : List Char) (fuel idx : Nat) (acc : List Nat),
      collectLoop T [] fuel idx acc = none) ∧
    search_text_in_document ("a".toList) [] false 10 =
      some (List.replicate 10 ⟨0, 0, "a".toList⟩) := by
  refine ⟨?_, ?_, by decide⟩
  · intro T mc
    cases mc
    · rw [findAndReplaceMatches_false_eq, show strLower [] = [] from rfl]
      exact collectLoop_empty_needle _ _ _ _
    · rw [findAndReplaceMatches_true_eq]
      exact collectLoop_empty_needle _ _ _ _
  · intro T fuel idx acc
    exact collectLoop_empty_needle T fuel idx acc

/-- A single-paragraph document whose one text run carries document start
index 1 (as Google Docs bodies do: the body's first text segment starts at
document index 1, index 0 being consumed by the body start). -/
def c4Doc : List StructuralElement :=
  [StructuralElement.paragraph ⟨[⟨1, some ("ab".toList)⟩]⟩]

/-- Check that every request of the list uses a flat-text match offset
directly as its document index: deletes cover [m, m + qlen) and inserts
place the replacement at m, for some flat match index m. -/
def reqsUseFlatOffsets (ms : List Nat) (qlen : Nat) (rep : List Char)
    (reqs : List Request) : Bool :=
  reqs.all (fun r =>
    match r with
    | .deleteContentRange dr =>
        ms.contains dr.startIndex && (dr.endIndex == dr.startIndex + qlen)
    | .insertText i s => ms.contains i && (s == rep))

/-- C4 counterexample: on c4Doc (flat text "ab", run document range [1, 3)),
searching "b" matches flat offset 1; the emitted delete range is [1, 2) —
the flat offset used directly — while the spec's Offset Mapper over the run
table maps flat offset 1 to document index 1 + (1 - 0) = 2. -/
theorem c4_counterexample :
    findAndReplaceOnDocument c4Doc ("b".toList) ("X".toList) true false =
      some ([Request.deleteContentRange ⟨1, 2⟩, Request.insertText 1 ("X".toList)], 1) ∧
    specMapFlatToDoc (specRuns c4Doc) 1 = some 2 ∧ (1 : Nat) ≠ 2 := by
  decide

/-- C4 (amended): the emitted edit operations use the flat-text offsets
directly as document indices (delete of [m, m + findText.length), insert of
the replacement at m), with no run-table mapping applied, so structural
index space between runs is not accounted for. -/
theorem c4_flat_offsets_used_directly (content : List StructuralElement)
    (Q R : List Char) (mc ra : Bool) (ms : List Nat) (reqs : List Request) (n : Nat)
    (hm : findAndReplaceMatches (extractText content) Q mc = some ms)
    (hp : findAndReplaceOnDocument content Q R mc ra = some (reqs, n)) :
    reqsUseFlatOffsets ms Q.length R reqs = true := by
  by_cases hne : ms = []
  · subst hne
    unfold findAndReplaceOnDocument find_and_replace at hp
    rw [hm] at hp
    have hp2 : some (([] : List Request), (0 : Nat)) = some (reqs, n) := hp
    injection hp2 with hp2
    injection hp2 with h1 h2
    rw [← h1]
    rfl
  · unfold findAndReplaceOnDocument at hp
    rw [find_and_replace_eq (extractText content) Q R mc ra ms hm hne] at hp
    injection hp with hp
    have hreqs : reqs = (planLoop Q.length R ra (sortDesc ms) 0).1 := by rw [hp]
    unfold reqsUseFlatOffsets
    rw [List.all_eq_true]
    intro r hr
    obtain ⟨m, hmem, hor⟩ := planLoop_mem Q.length R ra (sortDesc ms) 0 r
      (by rw [← hreqs]; exact hr)
    have hmem' : m ∈ ms := (sortDesc_perm ms).mem_iff.mp hmem
    rcases hor with hor | hor
    · subst hor
      simp [List.contains, List.elem_eq_mem, hmem']
    · subst hor
      simp [List.contains, List.elem_eq_mem, hmem']

/-- C4 witness: the concrete c4Doc run of the amended statement. -/
theorem c4_witness :
    reqsUseFlatOffsets [1] ("b".toList).length ("X".toList)
      [Request.deleteContentRange ⟨1, 2⟩, Request.insertText 1 ("X".toList)] = true :=
  c4_flat_offsets_used_directly c4Doc ("b".toList) ("X".toList) true false [1]
    [Request.deleteContentRange ⟨1, 2⟩, Request.insertText 1 ("X".toList)] 1
    (by decide) (by decide)

/-- C5: the emitted request sequence processes the planned matches in
strictly descending document-index order, and for each planned match emits
a deleteContentRange over [m, m + findText.length) immediately followed by
an insertText of the replacement at m. -/
theorem c5_descending_delete_insert_pairs (T Q R : List Char) (mc ra : Bool)
    (ms : List Nat) (reqs : List Request) (n : Nat)
    (hm : findAndReplaceMatches T Q mc = some ms)
    (hp : find_and_replace T Q R mc ra = some (reqs, n)) :
    List.Chain' (fun a b : Nat => b < a)
      (if ra then sortDesc ms else (sortDesc ms).take 1) ∧
    reqs = (if ra then sortDesc ms else (sortDesc ms).take 1).flatMap
      (fun m => [Request.deleteContentRange ⟨m, m + Q.length⟩,
        Request.insertText m R]) := by
  have hQ := findAndReplaceMatches_ne_nil_query T Q mc ms hm
  have hchain := findAndReplaceMatches_chain T Q mc ms hm
  have hdesc := sortDesc_pairwise_gt Q ms hQ hchain
  constructor
  · cases ra
    · show List.Chain' (fun a b : Nat => b < a) ((sortDesc ms).take 1)
      cases hsd : sortDesc ms with
      | nil => exact List.chain'_nil
      | cons M rest => exact List.chain'_singleton _
    · exact hdesc
  · by_cases hne : ms = []
    · subst hne
      unfold find_and_replace at hp
      rw [hm] at hp
      have hp2 : some (([] : List Request), (0 : Nat)) = some (reqs, n) := hp
      injection hp2 with hp2
      injection hp2 with h1 h2
      rw [← h1]
      cases ra <;> rfl
    · rw [find_and_replace_eq T Q R mc ra ms hm hne] at hp
      injection hp with hp
      have hreqs : reqs = (planLoop Q.length R ra (sortDesc ms) 0).1 := by rw [hp]
      cases ra
      · show reqs = ((sortDesc ms).take 1).flatMap _
        cases hsd : sortDesc ms with
        | nil => exact absurd hsd (sortDesc_ne_nil ms hne)
        | cons M rest =>
          rw [hsd, planLoop_single] at hreqs
          exact hreqs
      · show reqs = (sortDesc ms).flatMap _
        rw [planLoop_replaceAll] at hreqs
        exact hreqs

/-- C5 witness: the concrete replaceAll plan for "ab ab" / "ab" / "cd". -/
theorem c5_witness :
    List.Chain' (fun a b : Nat => b < a)
      (if true then sortDesc [0, 3] else (sortDesc [0, 3]).take 1) ∧
    [Request.deleteContentRange ⟨3, 5⟩, Request.insertText 3 ("cd".toList),
     Request.deleteContentRange ⟨0, 2⟩, Request.insertText 0 ("cd".toList)] =
      (if true then sortDesc [0, 3] else (sortDesc [0, 3]).take 1).flatMap
        (fun m => [Request.deleteContentRange ⟨m, m + ("ab".toList).length⟩,
          Request.insertText m ("cd".toList)]) :=
  c5_descending_delete_insert_pairs ("ab ab".toList) ("ab".toList) ("cd".toList)
    true true [0, 3]
    [Request.deleteContentRange ⟨3, 5⟩, Request.insertText 3 ("cd".toList),
     Request.deleteContentRange ⟨0, 2⟩, Request.insertText 0 ("cd".toList)] 2
    (by decide) (by decide)

/-- C6 counterexample: on "ab ab" with findText "ab", two matches are found,
but with replaceAll = false the tool reports replacementsCount = 1 and its
structured result (success, replacementsCount, message) carries no skipped
count at all, so applied + skipped = 1 + 0 ≠ 2 = total matches found. -/
theorem c6_counterexample :
    findAndReplaceMatches ("ab ab".toList) ("ab".toList) true = some [0, 3] ∧
    find_and_replace ("ab ab".toList) ("ab".toList) ("X".toList) true false =
      some ([Request.deleteContentRange ⟨3, 5⟩, Request.insertText 3 ("X".toList)], 1) ∧
    (1 + 0 ≠ ([0, 3] : List Nat).length) := by
  decide

/-- C6 (amended): the only count the tool computes is replacementsCount, the
number of planned delete+insert pairs: the total number of matches when
replaceAll is true, exactly one otherwise; unplanned matches are reported in
no count. -/
theorem c6_replacements_count (T Q R : List Char) (mc ra : Bool) (ms : List Nat)
    (reqs : List Request) (n : Nat)
    (hm : findAndReplaceMatches T Q mc = some ms) (hne : ms ≠ [])
    (hp : find_and_replace T Q R mc ra = some (reqs, n)) :
    n = if ra then ms.length else 1 := by
  rw [find_and_replace_eq T Q R mc ra ms hm hne] at hp
  injection hp with hp
  have hn : n = (planLoop Q.length R ra (sortDesc ms) 0).2 := by rw [hp]
  cases ra
  · show n = 1
    cases hsd : sortDesc ms with
    | nil => exact absurd hsd (sortDesc_ne_nil ms hne)
    | cons M rest =>
      rw [hsd, planLoop_single] at hn
      exact hn
  · show n = ms.length
    rw [planLoop_replaceAll] at hn
    rw [hn]
    show 0 + (sortDesc ms).length = ms.length
    rw [Nat.zero_add, (sortDesc_perm ms).length_eq]

/-- C6 witness: on "ab ab" with two matches and replaceAll = false, the
reported count is 1. -/
theorem c6_witness :
    (1 : Nat) = if (false : Bool) then ([0, 3] : List Nat).length else 1 :=
  c6_replacements_count ("ab ab".toList) ("ab".toList) ("X".toList) true false [0, 3]
    [Request.deleteContentRange ⟨3, 5⟩, Request.insertText 3 ("X".toList)] 1
    (by decide) (by decide) (by decide)

/-- C7: matching is non-overlapping and left-to-right: the scan resumes
after each match, so consecutive find_and_replace matches satisfy
m + findText.length ≤ m', and consecutive search_text_in_document matches
satisfy endIndex ≤ startIndex of the next. -/
theorem c7_nonoverlapping_matches (T Q : List Char) (mc : Bool) (maxR : Nat)
    (ms : List Nat) (sms : List SearchMatch)
    (h1 : findAndReplaceMatches T Q mc = some ms)
    (h2 : search_text_in_document T Q mc maxR = some sms) :
    List.Chain' (fun a b => a + Q.length ≤ b) ms ∧
    List.Chain' (fun a b : SearchMatch => a.endIndex ≤ b.startIndex) sms := by
  have hQ := findAndReplaceMatches_ne_nil_query T Q mc ms h1
  refine ⟨findAndReplaceMatches_chain T Q mc ms h1, ?_⟩
  cases mc
  · have h2' : searchLoop T (strLower T) (strLower Q) Q.length
        (if maxR = 0 then 10 else maxR) ((if maxR = 0 then 10 else maxR) + 1) 0 []
        = some sms := h2
    exact searchLoop_chain T (strLower T) (strLower Q) Q.length _
      (fun hc => hQ ((strLower_nil_iff Q).mp hc)) _ _ _ _ h2' List.chain'_nil
      (by simp)
  · have h2' : searchLoop T T Q Q.length
        (if maxR = 0 then 10 else maxR) ((if maxR = 0 then 10 else maxR) + 1) 0 []
        = some sms := h2
    exact searchLoop_chain T T Q Q.length _ hQ _ _ _ _ h2' List.chain'_nil (by simp)

/-- C7 witness: the two case-insensitive matches of "ab" in "aB ab" do not
overlap in either tool's output. -/
theorem c7_witness :
    List.Chain' (fun a b => a + ("ab".toList).length ≤ b) [0, 3] ∧
    List.Chain' (fun a b : SearchMatch => a.endIndex ≤ b.startIndex)
      [⟨0, 2, "aB ab".toList⟩, ⟨3, 5, "aB ab".toList⟩] :=
  c7_nonoverlapping_matches ("aB ab".toList) ("ab".toList) false 10 [0, 3]
    [⟨0, 2, "aB ab".toList⟩, ⟨3, 5, "aB ab".toList⟩] (by decide) (by decide)

/-- C8 (code bug): with matchCase = false and a length-changing case
folding, the plan's delete range comes from the folded copy and can reach
past the original text, so applying the replaceAll plan changes the flat
text length even though the replacement has the query's length: on
T = U+0130 "ab" (length 3), Q = "ab", R = "xy", the plan is delete [2, 4)
then insert at 2, and applying it yields a text of length 4. -/
theorem c8_folded_length_bug :
    find_and_replace foldExpandingText ("ab".toList) ("xy".toList) false true =
      some ([Request.deleteContentRange ⟨2, 4⟩, Request.insertText 2 ("xy".toList)], 1) ∧
    ("xy".toList).length = ("ab".toList).length ∧
    (applyRequests foldExpandingText
      [Request.deleteContentRange ⟨2, 4⟩, Request.insertText 2 ("xy".toList)]).length = 4 ∧
    foldExpandingText.length = 3 := by
  decide

/-- C9: sanitizeSearchQuery escapes every single quote (each one in the
result is immediately preceded by a backslash), removes every angle bracket
and NUL character, and returns the empty string for non-string input. -/
theorem c9_sanitize_search_query (q : List Char) :
    quotesEscaped (sanitizeSearchQuery (some q)) = true ∧
    (sanitizeSearchQuery (some q)).all
      (fun c => c != '<' && c != '>' && c != nullChar) = true ∧
    sanitizeSearchQuery none = [] := by
  refine ⟨?_, ?_, rfl⟩
  · rw [sanitizeSearchQuery_some_eq]
    exact escapeFilter_escaped q
  · rw [sanitizeSearchQuery_some_eq, List.all_eq_true]
    intro c hc
    have h2 := List.mem_filter.mp hc
    have h3 := List.mem_filter.mp h2.1
    simp only [Bool.and_eq_true]
    exact ⟨(Bool.and_eq_true _ _).mp h3.2, h2.2⟩

/-- A document whose extracted text is whitespace only, for the C10 witness. -/
def c10Doc : List StructuralElement :=
  [StructuralElement.paragraph ⟨[⟨1, some ("  \n".toList)⟩]⟩]

/-- C10: get_word_count reports wordCount = 0 for every document whose
extracted text is empty or consists only of whitespace, and for every
document reports characterCount equal to the exact length of the
concatenated extracted text, whitespace and trailing newlines included. -/
theorem c10_word_count_stats (content : List StructuralElement) :
    ((extractText content).all jsIsSpace = true →
      (get_word_count content).wordCount = 0) ∧
    (get_word_count content).characterCount = (extractText content).length := by
  constructor
  · intro h
    have hall : ∀ c ∈ extractText content, jsIsSpace c = true := List.all_eq_true.mp h
    have htrim : jsTrim (extractText content) = [] := jsTrim_all_space _ hall
    have hnil : splitWs [] = [[]] := by simp [splitWs]
    show ((splitWs (jsTrim (extractText content))).filter
      (fun w => decide (0 < w.length))).length = 0
    rw [htrim, hnil]
    rfl
  · rfl

/-- C10 witness: on a document whose only text run is "  \n" (all
whitespace), the reported word count is 0 and the character count is the
extracted text's length. -/
theorem c10_witness :
    (get_word_count c10Doc).wordCount = 0 ∧
    (get_word_count c10Doc).characterCount = (extractText c10Doc).length :=
  ⟨(c10_word_count_stats c10Doc).1 (by decide), (c10_word_count_stats c10Doc).2⟩

end GoogleDocsMcp
